import Mathlib

/-!
Verification development for the HippoRAG context-aware memory core.

The development shallowly embeds the three core modules:
* `conflict_resolution.py` (fact-triple conflict detection and resolution),
* `context_aware_memory.py` (activation scoring, decay / forget policy),
* `embedding_store.py` (parallel-array vector record store with access logs).

Python strings are modelled as `String`, Python floats as `ℝ`, Python ints as
`ℕ`/`ℤ` as the context dictates, Python `None`-able values as `Option`.
Timestamps (ISO strings parsed with `datetime.fromisoformat`) are modelled as
real-valued instants in seconds; `datetime.now()` parameters are made explicit
arguments.
-/

namespace HippoRAG

/-! ## Conflict resolver (`conflict_resolution.py`) -/

/-- A fact triple `(subject, predicate, object)`. -/
abbrev Fact := String × String × String

/-- `ConflictRecord` dataclass from `conflict_resolution.py`. -/
structure ConflictRecord where
  timestamp : String
  old_fact : Fact
  new_fact : Fact
  old_hash_id : String
  new_hash_id : String
  old_access_count : ℕ
  new_access_count : ℕ
  resolution_strategy : String
  resolution_result : String
  notes : Option String
deriving DecidableEq, Repr

/-- The `ConflictResolver` state: its default strategy and the in-memory
audit history (`conflict_history`).  The audit-file configuration fields play
no role in the resolution logic and are omitted. -/
structure ConflictResolver where
  default_strategy : String
  conflict_history : List ConflictRecord
deriving DecidableEq

/-- `ConflictResolver.normalize_fact`: lowercase and strip every element. -/
def normalize_fact (fact : Fact) : Fact :=
  (fact.1.toLower.trim, fact.2.1.toLower.trim, fact.2.2.toLower.trim)

/-- `ConflictResolver.detect_conflicts`: the nested loop over `new_facts`
(outer, index `new_idx`) and `existing_facts` (inner, index `exist_idx`),
appending `(exist_idx, new_idx)` whenever normalized subject and predicate
agree but the normalized object differs. -/
def detect_conflicts (existing_facts new_facts : List Fact) : List (ℕ × ℕ) :=
  new_facts.enum.flatMap fun np =>
    existing_facts.enum.filterMap fun ep =>
      let en := normalize_fact ep.2
      let nn := normalize_fact np.2
      if nn.1 = en.1 ∧ nn.2.1 = en.2.1 ∧ nn.2.2 ≠ en.2.2 then
        some (ep.1, np.1)
      else
        none

/-- `ConflictResolver.resolve_conflict`.  The record is created with
`resolution_result = ""` and `notes = None`; each recognized strategy branch
overwrites these two fields; an unrecognized strategy leaves them untouched.
The record is appended to `conflict_history` and returned.
`datetime.now().isoformat()` is the explicit `now` argument. -/
def resolve_conflict (resolver : ConflictResolver) (old_fact new_fact : Fact)
    (old_hash_id new_hash_id : String)
    (old_access_count new_access_count : ℕ)
    (strategyArg : Option String) (now : String) :
    ConflictRecord × ConflictResolver :=
  let strategy := strategyArg.getD resolver.default_strategy
  let base : ConflictRecord :=
    { timestamp := now
      old_fact := old_fact
      new_fact := new_fact
      old_hash_id := old_hash_id
      new_hash_id := new_hash_id
      old_access_count := old_access_count
      new_access_count := new_access_count
      resolution_strategy := strategy
      resolution_result := ""
      notes := none }
  let record :=
    if strategy = "keep_new" then
      { base with
        resolution_result := new_fact.2.2
        notes := some "New fact replaces old fact (recent information is prioritized)" }
    else if strategy = "keep_old" then
      { base with
        resolution_result := old_fact.2.2
        notes := some "Old fact retained, new fact rejected (stability prioritized)" }
    else if strategy = "merge" then
      { base with
        resolution_result := "(" ++ old_fact.2.2 ++ " or " ++ new_fact.2.2 ++ ")"
        notes := some "Facts merged into uncertain knowledge (both possibilities preserved)" }
    else if strategy = "keep_frequent" then
      if new_access_count ≤ old_access_count then
        { base with
          resolution_result := old_fact.2.2
          notes := some ("Old fact retained (more frequently accessed: " ++
            toString old_access_count ++ " vs " ++ toString new_access_count ++ ")") }
      else
        { base with
          resolution_result := new_fact.2.2
          notes := some ("New fact adopted (more frequently accessed: " ++
            toString new_access_count ++ " vs " ++ toString old_access_count ++ ")") }
    else
      base
  (record, { resolver with conflict_history := resolver.conflict_history ++ [record] })

/-- The four strategy strings that `resolve_conflict` dispatches on. -/
def recognizedStrategies : List String :=
  ["keep_new", "keep_old", "merge", "keep_frequent"]

/-! ## Vector record store (`embedding_store.py`)

The store keeps three parallel lists (`hash_ids`, `texts`, `embeddings`) and a
per-identifier access log.  The derived dictionaries (`hash_id_to_idx`,
`hash_id_to_row`, …) are rebuilt from the parallel lists by `_save_data` at
the end of every mutating operation, so after any mutation they coincide with
the functions of the lists modelled by `lookupIdx` below; reads of
`hash_id_to_row.keys()` are therefore modelled as membership in `hash_ids`.
File persistence is a no-op in the model. -/

/-- Modelled from the spec: `compute_mdhash_id` lives in
`src/hipporag/utils/misc_utils.py`, which is not part of the provided
sources.  Per the spec it is a deterministic content hash of the text,
namespaced per store (the namespace plus `"-"` is prepended), with distinct
texts yielding distinct identifiers (no collisions); the md5 digest is
therefore modelled as the identity on the text. -/
def compute_mdhash_id (content : String) (pre : String) : String :=
  pre ++ content

/-- An access-log event as built by `record_access`: the stored query
embedding is discarded, only the locally computed cosine similarity is kept
(absent when no query embedding was supplied).  ISO timestamps are modelled
as real-valued instants (seconds). -/
structure AccessEvent where
  timestamp : ℝ
  query : Option String
  ranking_position : ℤ
  similarity_score : Option ℝ
  computed_similarity : Option ℝ

/-- The `EmbeddingStore` state.  `ns` is the store's `namespace` (a Lean
keyword).  `access_history` is the identifier-keyed dictionary of event
lists. -/
structure EmbeddingStore where
  ns : String
  hash_ids : List String
  texts : List String
  embeddings : List (List ℝ)
  access_history : List (String × List AccessEvent)

/-- A freshly loaded store with no persisted files: everything empty. -/
def emptyStore (ns : String) : EmbeddingStore :=
  ⟨ns, [], [], [], []⟩

/-- The `hash_id_to_idx` dictionary as rebuilt by `_save_data`:
`{h: idx for idx, h in enumerate(self.hash_ids)}` — for duplicate
identifiers the later (larger) index wins, hence the last matching
enumeration entry. -/
def lookupIdx (l : List String) (h : String) : Option ℕ :=
  ((l.enum.filter fun p => p.2 == h).map Prod.fst).getLast?

/-- Insertion into a Python dict: an existing key keeps its position and has
its value overwritten; a new key is appended. -/
def pyDictInsert (d : List (String × String)) (k v : String) :
    List (String × String) :=
  if d.any fun p => p.1 == k then
    d.map fun p => if p.1 == k then (k, v) else p
  else
    d ++ [(k, v)]

/-- `EmbeddingStore.insert_strings` (the store's upsert).  Returns the new
store together with `texts_to_encode`, the exact list of texts that was sent
to `embedding_model.batch_encode` (empty when the call returns early because
nothing was missing).  `encode` is the embedding model; batch encoding is
elementwise. -/
def insert_strings (encode : String → List ℝ) (s : EmbeddingStore)
    (texts : List String) : EmbeddingStore × List String :=
  let nodes_dict := texts.foldl
    (fun d t => pyDictInsert d (compute_mdhash_id t (s.ns ++ "-")) t) []
  let all_hash_ids := nodes_dict.map Prod.fst
  if all_hash_ids.isEmpty then (s, [])
  else
    let missing_ids := all_hash_ids.filter fun h => !(s.hash_ids.contains h)
    if missing_ids.isEmpty then (s, [])
    else
      let texts_to_encode := missing_ids.map fun h =>
        ((nodes_dict.find? fun p => p.1 == h).map Prod.snd).getD ""
      let missing_embeddings := texts_to_encode.map encode
      ({ s with
          embeddings := s.embeddings ++ missing_embeddings
          hash_ids := s.hash_ids ++ missing_ids
          texts := s.texts ++ texts_to_encode },
       texts_to_encode)

/-- The deletion loop of `EmbeddingStore.delete`: pop the given index from
each of the three parallel lists and drop the popped identifier's access-log
entry.  The caller supplies the indices already sorted in descending order,
exactly as `np.sort(indices)[::-1]` does. -/
def deleteLoop : EmbeddingStore → List ℕ → EmbeddingStore
  | s, [] => s
  | s, idx :: rest =>
    let h := s.hash_ids.getD idx ""
    deleteLoop
      { s with
        hash_ids := s.hash_ids.eraseIdx idx
        texts := s.texts.eraseIdx idx
        embeddings := s.embeddings.eraseIdx idx
        access_history := s.access_history.filter fun p => p.1 != h }
      rest

/-- Looking up every requested identifier in `hash_id_to_idx`; a missing
identifier raises `KeyError` (`none` here), as in the first loop of
`delete`. -/
def lookupIndices (l : List String) : List String → Option (List ℕ)
  | [] => some []
  | h :: hs =>
    match lookupIdx l h, lookupIndices l hs with
    | some i, some is => some (i :: is)
    | _, _ => none

/-- `EmbeddingStore.delete`: map the identifiers to their indices, sort the
indices in descending order, then pop each index from the parallel lists
(removing the access log of the popped record). -/
def EmbeddingStore.delete (s : EmbeddingStore) (ids : List String) :
    Option EmbeddingStore :=
  (lookupIndices s.hash_ids ids).map fun indices =>
    deleteLoop s ((indices.insertionSort (· ≤ ·)).reverse)

/-- `EmbeddingStore.get_access_history`: `access_history.get(hash_id, [])`. -/
def get_access_history (s : EmbeddingStore) (h : String) : List AccessEvent :=
  ((s.access_history.find? fun p => p.1 == h).map Prod.snd).getD []

/-- `EmbeddingStore.get_access_count`. -/
def get_access_count (s : EmbeddingStore) (h : String) : ℕ :=
  (get_access_history s h).length

/-- `EmbeddingStore.get_last_access_time`: the timestamp of the last event,
or `None` when the history is empty. -/
def get_last_access_time (s : EmbeddingStore) (h : String) : Option ℝ :=
  ((get_access_history s h).getLast?).map (·.timestamp)

/-- `EmbeddingStore.get_embedding`.  The Python code raises `KeyError`
(NotFound) on an unknown identifier; the model returns `none` in that case. -/
def get_embedding? (s : EmbeddingStore) (h : String) : Option (List ℝ) :=
  (lookupIdx s.hash_ids h).bind fun i => s.embeddings[i]?

/-- The three parallel sequences have equal length. -/
def EmbeddingStore.Wf (s : EmbeddingStore) : Prop :=
  s.texts.length = s.hash_ids.length ∧ s.embeddings.length = s.hash_ids.length

/-- The identifier-to-index mapping rebuilt from a list of identifiers is
consistent with that list: every index it produces points back at the
identifier, and every stored identifier is mapped. -/
def idxConsistent (l : List String) : Prop :=
  (∀ h i, lookupIdx l h = some i → l[i]? = some h) ∧
  ∀ h ∈ l, ∃ i, lookupIdx l h = some i


/-! ### Auxiliary lemmas about index-directed erasure

`delete` pops positions from the parallel lists in descending index order;
the lemmas below show that for strictly descending, in-range positions this
removes exactly the listed positions. -/

/-- Erase the given indices from a list, in the given order. -/
def multiErase : List α → List ℕ → List α
  | l, [] => l
  | l, i :: is => multiErase (l.eraseIdx i) is

/-- Keep the entries of `l` whose position is not listed in `is`. -/
def keepNotIdx (l : List α) (is : List ℕ) : List α :=
  (l.enum.filter fun p => !(is.contains p.1)).map Prod.snd

/-! ## Activation engine (`context_aware_memory.py`)

`ContextAwareMemoryManager` with its query-context window, activation
scoring, decay/forget policy, and state export/import. -/

/-- An entry of the query-context window: timestamp string, query text and
query embedding (stored as a plain list). -/
structure ContextEvent where
  timestamp : String
  query : String
  embedding : List ℝ

/-- The manager's state: the six configuration values and the query-context
window.  The three weights are stored already normalized (the constructor
divides by their sum). -/
structure Manager where
  context_window_size : ℕ
  recency_weight : ℝ
  frequency_weight : ℝ
  relevance_weight : ℝ
  relevance_threshold : ℝ
  decay_rate : ℝ
  query_history : List ContextEvent

/-- `ContextAwareMemoryManager.__init__`: stores the configuration and
normalizes the three weights by their sum. -/
noncomputable def Manager.init (ws : ℕ) (rw fw vw thr dr : ℝ) : Manager :=
  let total := rw + fw + vw
  ⟨ws, rw / total, fw / total, vw / total, thr, dr, []⟩

/-- `add_query_context`: append the new entry, then pop the oldest entry if
the window exceeded its configured size. -/
def add_query_context (m : Manager) (query : String) (embedding : List ℝ)
    (now : String) : Manager :=
  let h := m.query_history ++ [⟨now, query, embedding⟩]
  { m with
    query_history := if m.context_window_size < h.length then h.tail else h }

/-- The dictionary produced by `export_state` (deep copies are value copies
here). -/
structure ManagerState where
  context_window_size : ℕ
  recency_weight : ℝ
  frequency_weight : ℝ
  relevance_weight : ℝ
  relevance_threshold : ℝ
  decay_rate : ℝ
  query_history : List ContextEvent

/-- `export_state`. -/
def export_state (m : Manager) : ManagerState :=
  ⟨m.context_window_size, m.recency_weight, m.frequency_weight,
   m.relevance_weight, m.relevance_threshold, m.decay_rate, m.query_history⟩

/-- `load_state`: every field of the manager is overwritten from the state
dictionary (an exported state carries all seven keys, so no `.get` default
fires). -/
def load_state (_ : Manager) (st : ManagerState) : Manager :=
  ⟨st.context_window_size, st.recency_weight, st.frequency_weight,
   st.relevance_weight, st.relevance_threshold, st.decay_rate,
   st.query_history⟩

/-- `np.dot` on the (zip-truncated) coordinate lists. -/
noncomputable def dotL (v w : List ℝ) : ℝ :=
  (List.zipWith (· * ·) v w).sum

/-- `np.linalg.norm`: the Euclidean norm. -/
noncomputable def normL (v : List ℝ) : ℝ :=
  Real.sqrt (dotL v v)

/-- `ContextAwareMemoryManager._cosine_similarity`, with the zero-norm
guard returning `0.0`. -/
noncomputable def cosine_similarity (v w : List ℝ) : ℝ :=
  if normL v = 0 ∨ normL w = 0 then 0
  else dotL v w / (normL v * normL w)

/-- `_count_relevant_contexts`: how many events carry a recorded
`computed_similarity` at or above the threshold. -/
noncomputable def count_relevant_contexts (history : List AccessEvent)
    (threshold : ℝ) : ℕ :=
  (history.filter fun ev =>
    match ev.computed_similarity with
    | some sim => decide (threshold ≤ sim)
    | none => false).length

/-- The score dictionary returned by `calculate_activation_score`. -/
structure ActivationScores where
  hash_id : String
  semantic_relevance : ℝ
  recency_bonus : ℝ
  context_frequency : ℝ
  total_activation : ℝ
  should_retain : Bool

/-- `calculate_activation_score`.  `current_time` is the explicit `now`.
Components: clamped cosine similarity; exponential time decay off the last
access (`0.0` with no history); the capped count of relevant past contexts
(`0.0` with no history); the weighted total; and the retain flag
(`total ≥ 0.05` or empty history). -/
noncomputable def calculate_activation_score (m : Manager)
    (memory_hash_id : String) (access_history : List AccessEvent)
    (current_query_embedding memory_embedding : List ℝ)
    (current_time : ℝ) : ActivationScores :=
  let semantic_relevance :=
    max 0 (cosine_similarity current_query_embedding memory_embedding)
  let recency_bonus : ℝ :=
    match access_history.getLast? with
    | none => 0
    | some ev =>
      Real.exp (-m.decay_rate * ((current_time - ev.timestamp) / (24 * 3600)))
  let context_frequency : ℝ :=
    if access_history.isEmpty then 0
    else min 1
      ((count_relevant_contexts access_history m.relevance_threshold : ℝ) / 5)
  let total := m.relevance_weight * semantic_relevance +
    m.recency_weight * recency_bonus + m.frequency_weight * context_frequency
  ⟨memory_hash_id, semantic_relevance, recency_bonus, context_frequency,
   total,
   decide ((0.05 : ℝ) ≤ total) || decide (access_history.length = 0)⟩

/-- The record embedding as fetched by `calculate_batch_activation` via
`get_embedding` (always present for identifiers coming from
`get_all_ids`). -/
noncomputable def embeddingAt (s : EmbeddingStore) (h : String) : List ℝ :=
  (get_embedding? s h).getD []

/-- `calculate_batch_activation`: score every identifier of the store (the
identifier-keyed dictionary, in `get_all_ids` order). -/
noncomputable def calculate_batch_activation (m : Manager)
    (s : EmbeddingStore) (current_query_embedding : List ℝ)
    (current_time : ℝ) : List (String × ActivationScores) :=
  s.hash_ids.map fun h =>
    (h, calculate_activation_score m h (get_access_history s h)
      current_query_embedding (embeddingAt s h) current_time)

/-- Stable insertion into a list sorted by descending `total_activation`:
the new element goes before the first strictly smaller key, after equal
keys already present — matching Python's stable `sorted(..., reverse=True)`
given that `sortByActivation` inserts later elements first. -/
noncomputable def insertByActivation (x : String × ActivationScores) :
    List (String × ActivationScores) → List (String × ActivationScores)
  | [] => [x]
  | y :: l =>
    if y.2.total_activation ≤ x.2.total_activation then x :: y :: l
    else y :: insertByActivation x l

/-- `sorted(all_scores.items(), key=total_activation, reverse=True)`:
stable descending sort. -/
noncomputable def sortByActivation :
    List (String × ActivationScores) → List (String × ActivationScores)
  | [] => []
  | x :: l => insertByActivation x (sortByActivation l)

/-- Python `int()` on a float: truncation toward zero. -/
noncomputable def pyTrunc (x : ℝ) : ℤ :=
  if 0 ≤ x then ⌊x⌋ else -⌊-x⌋

/-- `get_memories_to_forget`: rank by descending total activation, retain
the top `max(1, int(total_count * retention_ratio))`, and among the rest
return only the identifiers whose `should_retain` is `False`. -/
noncomputable def get_memories_to_forget (m : Manager) (s : EmbeddingStore)
    (current_query_embedding : List ℝ) (retention_ratio : ℝ)
    (current_time : ℝ) : List String :=
  let sorted_memories := sortByActivation
    (calculate_batch_activation m s current_query_embedding current_time)
  let retain_count : ℤ :=
    max 1 (pyTrunc ((sorted_memories.length : ℝ) * retention_ratio))
  ((sorted_memories.drop retain_count.toNat).filter fun p =>
    p.2.should_retain == false).map Prod.fst


/-- The engine states reachable by sequences of engine operations: a freshly
constructed manager, `add_query_context`, and `load_state` from the export
of a reachable manager. -/
inductive Reachable : Manager → Prop
  | init : ∀ (ws : ℕ) (rw fw vw thr dr : ℝ),
      Reachable (Manager.init ws rw fw vw thr dr)
  | add : ∀ (m : Manager) (q : String) (emb : List ℝ) (now : String),
      Reachable m → Reachable (add_query_context m q emb now)
  | load : ∀ m m' : Manager, Reachable m → Reachable m' →
      Reachable (load_state m' (export_state m))


/-! ### A concrete forget-policy run

A three-record store whose records are all orthogonal to the query and all
accessed once at time 0, scored by an engine whose normalized weights are
`(0, 0, 1)`: every `total_activation` is `0` and every `should_retain` is
`False`, so the forget list is determined purely by the retain quota. -/

/-- Engine constructed with weights `(recency, frequency, relevance) =
(0, 0, 1)`. -/
noncomputable def ceEngine : Manager := Manager.init 10 0 0 1 (3/10) (1/100)

/-- One access event at time 0 with no recorded similarity. -/
noncomputable def ceEvent : AccessEvent := ⟨0, none, -1, none, none⟩

/-- Three records, each with embedding `[0, 1]` and one access event. -/
noncomputable def ceStore : EmbeddingStore :=
  ⟨"ns", ["a", "b", "c"], ["ta", "tb", "tc"],
   [[0, 1], [0, 1], [0, 1]],
   [("a", [ceEvent]), ("b", [ceEvent]), ("c", [ceEvent])]⟩


/-! ## Theorems -/

/-- C1 counterexample.  Calling `resolve_conflict` with the unrecognized
strategy string `"totally_bogus"` does not fail: it produces a
`ConflictRecord` (with empty `resolution_result` and no notes) and appends it
to the resolver's conflict history, contradicting the claim that the call
fails with an `InvalidStrategy` error and produces no `ConflictRecord`. -/
theorem resolve_conflict_unknown_strategy_produces_record :
    resolve_conflict ⟨"keep_new", []⟩ ("Erik Hort", "birthplace", "Montebello")
        ("Erik Hort", "birthplace", "Rockland County") "o1" "n1" 0 0
        (some "totally_bogus") "T" =
      (⟨"T", ("Erik Hort", "birthplace", "Montebello"),
        ("Erik Hort", "birthplace", "Rockland County"), "o1", "n1", 0, 0,
        "totally_bogus", "", none⟩,
       ⟨"keep_new",
        [⟨"T", ("Erik Hort", "birthplace", "Montebello"),
          ("Erik Hort", "birthplace", "Rockland County"), "o1", "n1", 0, 0,
          "totally_bogus", "", none⟩]⟩) := by
  rfl

/-- C1 (amended).  For every strategy string outside the four recognized ones,
`resolve_conflict` does not raise any error: it returns a `ConflictRecord`
whose `resolution_result` is the empty string and whose `notes` is `none`
(no branch fires), records the unrecognized strategy string verbatim, and
appends that record to the conflict history. -/
theorem resolve_conflict_unknown_strategy (resolver : ConflictResolver)
    (old_fact new_fact : Fact) (old_hash_id new_hash_id : String)
    (old_access_count new_access_count : ℕ) (s : String) (now : String)
    (hs : s ∉ recognizedStrategies) :
    (resolve_conflict resolver old_fact new_fact old_hash_id new_hash_id
        old_access_count new_access_count (some s) now).1 =
      { timestamp := now
        old_fact := old_fact
        new_fact := new_fact
        old_hash_id := old_hash_id
        new_hash_id := new_hash_id
        old_access_count := old_access_count
        new_access_count := new_access_count
        resolution_strategy := s
        resolution_result := ""
        notes := none } ∧
    (resolve_conflict resolver old_fact new_fact old_hash_id new_hash_id
        old_access_count new_access_count (some s) now).2.conflict_history =
      resolver.conflict_history ++
        [(resolve_conflict resolver old_fact new_fact old_hash_id new_hash_id
            old_access_count new_access_count (some s) now).1] := by
  simp only [recognizedStrategies, List.mem_cons, List.not_mem_nil, or_false,
    not_or] at hs
  obtain ⟨h1, h2, h3, h4⟩ := hs
  simp [resolve_conflict, h1, h2, h3, h4]

/-- C1 witness: the amended theorem applied at the concrete strategy
`"totally_bogus"`. -/
theorem resolve_conflict_unknown_strategy_witness :
    "totally_bogus" ∉ recognizedStrategies ∧
    (resolve_conflict ⟨"keep_new", []⟩ ("a", "b", "c") ("a", "b", "d")
        "o1" "n1" 3 5 (some "totally_bogus") "T").1 =
      { timestamp := "T"
        old_fact := ("a", "b", "c")
        new_fact := ("a", "b", "d")
        old_hash_id := "o1"
        new_hash_id := "n1"
        old_access_count := 3
        new_access_count := 5
        resolution_strategy := "totally_bogus"
        resolution_result := ""
        notes := none } ∧
    (resolve_conflict ⟨"keep_new", []⟩ ("a", "b", "c") ("a", "b", "d")
        "o1" "n1" 3 5 (some "totally_bogus") "T").2.conflict_history =
      [] ++ [(resolve_conflict ⟨"keep_new", []⟩ ("a", "b", "c") ("a", "b", "d")
        "o1" "n1" 3 5 (some "totally_bogus") "T").1] :=
  ⟨by decide,
   (resolve_conflict_unknown_strategy ⟨"keep_new", []⟩ ("a", "b", "c")
      ("a", "b", "d") "o1" "n1" 3 5 "totally_bogus" "T" (by decide)).1,
   (resolve_conflict_unknown_strategy ⟨"keep_new", []⟩ ("a", "b", "c")
      ("a", "b", "d") "o1" "n1" 3 5 "totally_bogus" "T" (by decide)).2⟩

/-- C6.  `detect_conflicts existing new` contains the pair `(i, j)` exactly
when position `i` of `existing` and position `j` of `new` hold triples whose
normalized subjects agree, normalized predicates agree, and normalized
objects differ.  Normalization (`lower` + `strip`) is applied only inside the
comparison; the function returns index pairs and leaves both input lists
untouched. -/
theorem detect_conflicts_mem_iff (existing_facts new_facts : List Fact)
    (i j : ℕ) :
    (i, j) ∈ detect_conflicts existing_facts new_facts ↔
      ∃ ef nf, existing_facts[i]? = some ef ∧ new_facts[j]? = some nf ∧
        (normalize_fact nf).1 = (normalize_fact ef).1 ∧
        (normalize_fact nf).2.1 = (normalize_fact ef).2.1 ∧
        (normalize_fact nf).2.2 ≠ (normalize_fact ef).2.2 := by
  simp only [detect_conflicts, List.mem_flatMap, List.mem_filterMap]
  constructor
  · rintro ⟨np, hnp, ep, hep, hsome⟩
    by_cases hc : (normalize_fact np.2).1 = (normalize_fact ep.2).1 ∧
        (normalize_fact np.2).2.1 = (normalize_fact ep.2).2.1 ∧
        (normalize_fact np.2).2.2 ≠ (normalize_fact ep.2).2.2
    · rw [if_pos hc] at hsome
      obtain ⟨hi, hj⟩ := Prod.mk.injEq .. ▸ Option.some.injEq .. ▸ hsome
      refine ⟨ep.2, np.2, ?_, ?_, ?_, ?_, ?_⟩
      · rw [← hi]
        exact List.mk_mem_enum_iff_getElem?.1 hep
      · rw [← hj]
        exact List.mk_mem_enum_iff_getElem?.1 hnp
      · exact hc.1
      · exact hc.2.1
      · exact hc.2.2
    · rw [if_neg hc] at hsome
      exact absurd hsome (by simp)
  · rintro ⟨ef, nf, hef, hnf, h1, h2, h3⟩
    refine ⟨(j, nf), List.mk_mem_enum_iff_getElem?.2 hnf,
      (i, ef), List.mk_mem_enum_iff_getElem?.2 hef, ?_⟩
    rw [if_pos ⟨h1, h2, h3⟩]

theorem lookupIdx_eq_none_of_not_mem {l : List String} {h : String}
    (hh : h ∉ l) : lookupIdx l h = none := by
  unfold lookupIdx
  have hfil : (l.enum.filter fun p => p.2 == h) = [] := by
    rw [List.filter_eq_nil_iff]
    intro p hp
    have hmem : p.2 ∈ l := by
      have := List.mk_mem_enum_iff_getElem?.1 hp
      exact List.getElem?_mem this
    simp only [beq_iff_eq]
    exact fun e => hh (e ▸ hmem)
  simp [hfil]

/-- C10.  The access-log read projections are total: for any identifier with
no entry in the access-history dictionary (in particular any identifier
unknown to the store), `get_access_history` returns `[]`, `get_access_count`
returns `0` and `get_last_access_time` returns `None` — no NotFound error is
possible — whereas `get_embedding` on an identifier absent from the store
fails (`none`, modelling the `KeyError`). -/
theorem access_log_reads_total (s : EmbeddingStore) (h : String) :
    ((∀ p ∈ s.access_history, p.1 ≠ h) →
      get_access_history s h = [] ∧ get_access_count s h = 0 ∧
        get_last_access_time s h = none) ∧
    (h ∉ s.hash_ids → get_embedding? s h = none) := by
  constructor
  · intro hmiss
    have hfind : (s.access_history.find? fun p => p.1 == h) = none := by
      rw [List.find?_eq_none]
      intro p hp
      simp only [beq_iff_eq]
      exact hmiss p hp
    refine ⟨?_, ?_, ?_⟩ <;>
      simp [get_access_history, get_access_count, get_last_access_time, hfind]
  · intro hmem
    simp [get_embedding?, lookupIdx_eq_none_of_not_mem hmem]

/-- C10 witness: the theorem applied to a concrete one-record store and the
unknown identifier `"zz"`. -/
theorem access_log_reads_total_witness :
    (∀ p ∈ (⟨"ns", ["a"], ["ta"], [[(1 : ℝ)]],
        [("a", [⟨0, none, -1, none, none⟩])]⟩ : EmbeddingStore).access_history,
      p.1 ≠ "zz") ∧
    get_access_history ⟨"ns", ["a"], ["ta"], [[(1 : ℝ)]],
        [("a", [⟨0, none, -1, none, none⟩])]⟩ "zz" = [] ∧
    get_access_count ⟨"ns", ["a"], ["ta"], [[(1 : ℝ)]],
        [("a", [⟨0, none, -1, none, none⟩])]⟩ "zz" = 0 ∧
    get_last_access_time ⟨"ns", ["a"], ["ta"], [[(1 : ℝ)]],
        [("a", [⟨0, none, -1, none, none⟩])]⟩ "zz" = none ∧
    ("zz" ∉ (⟨"ns", ["a"], ["ta"], [[(1 : ℝ)]],
        [("a", [⟨0, none, -1, none, none⟩])]⟩ : EmbeddingStore).hash_ids) ∧
    get_embedding? ⟨"ns", ["a"], ["ta"], [[(1 : ℝ)]],
        [("a", [⟨0, none, -1, none, none⟩])]⟩ "zz" = none := by
  have hm : ∀ p ∈ (⟨"ns", ["a"], ["ta"], [[(1 : ℝ)]],
      [("a", [⟨0, none, -1, none, none⟩])]⟩ : EmbeddingStore).access_history,
      p.1 ≠ "zz" := by
    intro p hp
    simp only [List.mem_singleton] at hp
    subst hp
    decide
  have hu : "zz" ∉ (⟨"ns", ["a"], ["ta"], [[(1 : ℝ)]],
      [("a", [⟨0, none, -1, none, none⟩])]⟩ : EmbeddingStore).hash_ids := by
    decide
  obtain ⟨h1, h2, h3⟩ := (access_log_reads_total _ "zz").1 hm
  exact ⟨hm, h1, h2, h3, hu, (access_log_reads_total _ "zz").2 hu⟩

/-- C9.  Upsert is idempotent.  Starting from an empty store, upserting a
text yields one record keyed by its content-hash identifier; upserting the
same text again returns the store unchanged and encodes nothing; and
upserting the same text twice within one call behaves like a single upsert,
encoding the text exactly once. -/
theorem insert_strings_idempotent (encode : String → List ℝ) (ns t : String) :
    (insert_strings encode (insert_strings encode (emptyStore ns) [t]).1 [t]).1 =
      (insert_strings encode (emptyStore ns) [t]).1 ∧
    (insert_strings encode (insert_strings encode (emptyStore ns) [t]).1 [t]).2 = [] ∧
    (insert_strings encode (emptyStore ns) [t]).1.hash_ids.count
        (compute_mdhash_id t (ns ++ "-")) = 1 ∧
    (insert_strings encode (emptyStore ns) [t, t]).1 =
      (insert_strings encode (emptyStore ns) [t]).1 ∧
    (insert_strings encode (emptyStore ns) [t, t]).2 = [t] := by
  have h1 : insert_strings encode (emptyStore ns) [t] =
      (⟨ns, [compute_mdhash_id t (ns ++ "-")], [t],
        [encode t], []⟩, [t]) := by
    simp [insert_strings, pyDictInsert, emptyStore]
  have h2 : insert_strings encode
      (⟨ns, [compute_mdhash_id t (ns ++ "-")], [t], [encode t], []⟩ :
        EmbeddingStore) [t] =
      ((⟨ns, [compute_mdhash_id t (ns ++ "-")], [t], [encode t], []⟩ :
        EmbeddingStore), []) := by
    simp [insert_strings, pyDictInsert]
  have h3 : insert_strings encode (emptyStore ns) [t, t] =
      (⟨ns, [compute_mdhash_id t (ns ++ "-")], [t],
        [encode t], []⟩, [t]) := by
    simp [insert_strings, pyDictInsert, emptyStore]
  rw [h1, h3, h2]
  simp
theorem keepNotIdx_nil (l : List α) : keepNotIdx l [] = l := by
  simp only [keepNotIdx, List.contains_nil, Bool.not_false, List.filter_true]
  rw [List.enum_eq_enumFrom, List.enumFrom_map_snd]

theorem keepNotIdx_eraseIdx (l : List α) (i : ℕ) (is : List ℕ)
    (hi : i < l.length) (his : ∀ j ∈ is, j < i) :
    keepNotIdx (l.eraseIdx i) is = keepNotIdx l (i :: is) := by
  have hkeep : ∀ (B : List α) (n : ℕ) (js : List ℕ), (∀ j ∈ js, j < n) →
      (B.enumFrom n).filter (fun p => !(js.contains p.1)) = B.enumFrom n := by
    intro B n js hjs
    apply List.filter_eq_self.mpr
    intro p hp
    have hn : n ≤ p.1 := List.le_fst_of_mem_enumFrom hp
    simp only [Bool.not_eq_true', ← Bool.not_eq_true]
    intro hcon
    have : p.1 ∈ js := by simpa using hcon
    exact absurd (hjs p.1 this) (by omega)
  have hlen : (l.take i).length = i := by
    simp [List.length_take, Nat.min_eq_left hi.le]
  have hLHS : keepNotIdx (l.eraseIdx i) is =
      ((l.take i).enum.filter fun p => !(is.contains p.1)).map Prod.snd ++
        l.drop (i + 1) := by
    rw [keepNotIdx, List.eraseIdx_eq_take_drop_succ, List.enum_append,
      List.filter_append, hlen, hkeep _ i is his, List.map_append,
      List.enumFrom_map_snd]
  have hfr : ∀ p ∈ (l.take i).enum,
      (!((i :: is).contains p.1)) = (!(is.contains p.1)) := by
    intro p hp
    have hg := List.mk_mem_enum_iff_getElem?.1 hp
    have hb := (List.getElem?_eq_some_iff.mp hg).1
    rw [hlen] at hb
    simp only [List.contains_cons]
    have hne : (p.1 == i) = false := by
      simp only [beq_eq_false_iff_ne, ne_eq]
      omega
    rw [hne, Bool.false_or]
  have hRHS : keepNotIdx l (i :: is) =
      ((l.take i).enum.filter fun p => !(is.contains p.1)).map Prod.snd ++
        l.drop (i + 1) := by
    conv_lhs => rw [keepNotIdx, ← List.take_append_drop i l,
      List.drop_eq_getElem_cons hi]
    rw [List.enum_append, List.enumFrom_cons, hlen]
    rw [List.filter_append, List.filter_congr hfr]
    rw [List.filter_cons_of_neg (by simp)]
    rw [hkeep _ (i + 1) (i :: is) (by
      intro j hj
      rcases List.mem_cons.mp hj with h | h
      · omega
      · exact Nat.lt_succ_of_lt (his j h))]
    rw [List.map_append, List.enumFrom_map_snd]
  rw [hLHS, hRHS]

theorem multiErase_eq_keepNotIdx (is : List ℕ) (l : List α)
    (hp : is.Pairwise (· > ·)) (hb : ∀ i ∈ is, i < l.length) :
    multiErase l is = keepNotIdx l is := by
  induction is generalizing l with
  | nil => simp [multiErase, keepNotIdx_nil]
  | cons i is ih =>
    have hi : i < l.length := hb i (List.mem_cons_self i is)
    have hhead : ∀ j ∈ is, j < i := fun j hj =>
      (List.pairwise_cons.mp hp).1 j hj
    rw [multiErase, ih (l.eraseIdx i) hp.tail (by
      intro j hj
      have h1 : j < i := hhead j hj
      rw [List.length_eraseIdx, if_pos hi]
      omega)]
    exact keepNotIdx_eraseIdx l i is hi hhead

theorem multiErase_length (is : List ℕ) (l : List α)
    (hp : is.Pairwise (· > ·)) (hb : ∀ i ∈ is, i < l.length) :
    (multiErase l is).length = l.length - is.length := by
  induction is generalizing l with
  | nil => simp [multiErase]
  | cons i is ih =>
    have hi : i < l.length := hb i (List.mem_cons_self i is)
    have hhead : ∀ j ∈ is, j < i := fun j hj =>
      (List.pairwise_cons.mp hp).1 j hj
    rw [multiErase, ih (l.eraseIdx i) hp.tail (by
      intro j hj
      have h1 : j < i := hhead j hj
      rw [List.length_eraseIdx, if_pos hi]
      omega)]
    rw [List.length_eraseIdx, if_pos hi]
    simp only [List.length_cons]
    omega

theorem lookupIdx_getElem? {l : List String} {h : String} {i : ℕ}
    (hl : lookupIdx l h = some i) : l[i]? = some h := by
  unfold lookupIdx at hl
  have hmem := List.getLast?_eq_some_iff.mp hl
  obtain ⟨l', hl'⟩ := hmem
  have : i ∈ (l.enum.filter fun p => p.2 == h).map Prod.fst := by
    rw [hl']
    simp
  obtain ⟨p, hpf, hpi⟩ := List.mem_map.mp this
  have hpe := List.mem_filter.mp hpf
  have hp2 : p.2 = h := by simpa using hpe.2
  have := List.mk_mem_enum_iff_getElem?.1 hpe.1
  rw [← hpi, this, hp2]

theorem lookupIdx_isSome_of_mem {l : List String} {h : String} (hm : h ∈ l) :
    ∃ i, lookupIdx l h = some i := by
  obtain ⟨n, hn⟩ := List.mem_iff_getElem?.mp hm
  have hne : (l.enum.filter fun p => p.2 == h).map Prod.fst ≠ [] := by
    intro hnil
    have : (n, h) ∈ l.enum.filter fun p => p.2 == h := by
      rw [List.mem_filter]
      exact ⟨List.mk_mem_enum_iff_getElem?.2 hn, by simp⟩
    have : (n, h).1 ∈ (l.enum.filter fun p => p.2 == h).map Prod.fst :=
      List.mem_map_of_mem Prod.fst this
    rw [hnil] at this
    exact absurd this (List.not_mem_nil _)
  obtain ⟨a, ha⟩ := Option.ne_none_iff_exists'.mp
    (mt List.getLast?_eq_none_iff.mp hne)
  exact ⟨a, ha⟩

/-- The identifier-to-index dictionary rebuilt by `_save_data` is always
consistent with the identifier list it was built from. -/
theorem idxConsistent_holds (l : List String) : idxConsistent l :=
  ⟨fun _ _ hli => lookupIdx_getElem? hli, fun _ hm => lookupIdx_isSome_of_mem hm⟩

theorem lookupIndices_exists {l : List String} {ids : List String}
    (hsub : ∀ h ∈ ids, h ∈ l) : ∃ is, lookupIndices l ids = some is := by
  induction ids with
  | nil => exact ⟨[], rfl⟩
  | cons h hs ih =>
    obtain ⟨i, hi⟩ := lookupIdx_isSome_of_mem (hsub h (List.mem_cons_self h hs))
    obtain ⟨is, his⟩ := ih fun x hx => hsub x (List.mem_cons_of_mem h hx)
    exact ⟨i :: is, by simp [lookupIndices, hi, his]⟩

theorem lookupIndices_mem {l : List String} {ids : List String} {is : List ℕ}
    (hli : lookupIndices l ids = some is) (j : ℕ) :
    j ∈ is ↔ ∃ h ∈ ids, lookupIdx l h = some j := by
  induction ids generalizing is with
  | nil =>
    simp only [lookupIndices, Option.some.injEq] at hli
    subst hli
    simp
  | cons h hs ih =>
    simp only [lookupIndices] at hli
    cases hlk : lookupIdx l h with
    | none => rw [hlk] at hli; exact absurd hli (by simp)
    | some i =>
      rw [hlk] at hli
      cases hrest : lookupIndices l hs with
      | none => rw [hrest] at hli; exact absurd hli (by simp)
      | some is' =>
        rw [hrest] at hli
        simp only [Option.some.injEq] at hli
        subst hli
        constructor
        · intro hj
          rcases List.mem_cons.mp hj with rfl | hj'
          · exact ⟨h, List.mem_cons_self h hs, hlk⟩
          · obtain ⟨x, hx, hlx⟩ := (ih hrest).mp hj'
            exact ⟨x, List.mem_cons_of_mem h hx, hlx⟩
        · rintro ⟨x, hx, hlx⟩
          rcases List.mem_cons.mp hx with rfl | hx'
          · rw [hlk] at hlx
            simp only [Option.some.injEq] at hlx
            exact List.mem_cons.mpr (Or.inl hlx.symm)
          · exact List.mem_cons.mpr (Or.inr ((ih hrest).mpr ⟨x, hx', hlx⟩))

theorem getElem?_inj_of_nodup {l : List String} (hnd : l.Nodup) {i j : ℕ}
    {a : String} (hi : l[i]? = some a) (hj : l[j]? = some a) : i = j := by
  obtain ⟨hi1, hi2⟩ := List.getElem?_eq_some_iff.mp hi
  obtain ⟨hj1, hj2⟩ := List.getElem?_eq_some_iff.mp hj
  have heq : (⟨i, hi1⟩ : Fin l.length) = ⟨j, hj1⟩ :=
    List.nodup_iff_injective_getElem.mp hnd
      (show l[(⟨i, hi1⟩ : Fin l.length)] = l[(⟨j, hj1⟩ : Fin l.length)] by
        simp only [Fin.getElem_fin]
        rw [hi2, hj2])
  simpa using heq

theorem lookupIndices_nodup {l : List String} {ids : List String}
    {is : List ℕ} (hnd : ids.Nodup)
    (hli : lookupIndices l ids = some is) : is.Nodup := by
  induction ids generalizing is with
  | nil =>
    simp only [lookupIndices, Option.some.injEq] at hli
    subst hli
    exact List.nodup_nil
  | cons h hs ih =>
    simp only [lookupIndices] at hli
    cases hlk : lookupIdx l h with
    | none => rw [hlk] at hli; exact absurd hli (by simp)
    | some i =>
      rw [hlk] at hli
      cases hrest : lookupIndices l hs with
      | none => rw [hrest] at hli; exact absurd hli (by simp)
      | some is' =>
        rw [hrest] at hli
        simp only [Option.some.injEq] at hli
        subst hli
        rw [List.nodup_cons]
        refine ⟨?_, ih (List.nodup_cons.mp hnd).2 hrest⟩
        intro hmem
        obtain ⟨x, hx, hlx⟩ := (lookupIndices_mem hrest i).mp hmem
        have h1 := lookupIdx_getElem? hlk
        have h2 := lookupIdx_getElem? hlx
        have : h = x := by
          rw [h1] at h2
          exact (Option.some.injEq ..▸ h2)
        exact (List.nodup_cons.mp hnd).1 (this ▸ hx)

theorem keep_by_value {α : Type} (l : List α) (q : α → Bool) :
    ((l.enum.filter fun p => q p.2).map Prod.snd) = l.filter q := by
  suffices hgen : ∀ n : ℕ,
      (((l.enumFrom n).filter fun p => q p.2).map Prod.snd) = l.filter q by
    rw [List.enum_eq_enumFrom]
    exact hgen 0
  induction l with
  | nil => intro n; simp
  | cons x xs ih =>
    intro n
    rw [List.enumFrom_cons]
    by_cases hq : q x
    · rw [List.filter_cons_of_pos (by simpa using hq),
        List.filter_cons_of_pos hq]
      simp only [List.map_cons]
      rw [ih (n + 1)]
    · rw [List.filter_cons_of_neg (by simpa using hq),
        List.filter_cons_of_neg hq]
      exact ih (n + 1)

theorem deleteLoop_fields (s : EmbeddingStore) (is : List ℕ) :
    (deleteLoop s is).hash_ids = multiErase s.hash_ids is ∧
    (deleteLoop s is).texts = multiErase s.texts is ∧
    (deleteLoop s is).embeddings = multiErase s.embeddings is := by
  induction is generalizing s with
  | nil => exact ⟨rfl, rfl, rfl⟩
  | cons i is ih =>
    rw [deleteLoop, multiErase, multiErase, multiErase]
    exact ih _

/-- C7.  After each mutating store operation the three parallel sequences
(identifiers, texts, embeddings) have equal length and the rebuilt
identifier-to-index mapping is consistent with the identifier sequence.
`insert_strings` appends equally many entries to each sequence; for distinct
identifiers that are present in the store, `delete` succeeds and — because it
pops the looked-up indices in descending order, so that no removal shifts a
position that is still pending — removes exactly the requested records,
leaving `hash_ids` equal to the original sequence with the requested
identifiers filtered out. -/
theorem store_mutations_preserve_invariants (s : EmbeddingStore)
    (encode : String → List ℝ) (texts ids : List String)
    (hwf : s.Wf) (hnd : s.hash_ids.Nodup) :
    ((insert_strings encode s texts).1.Wf ∧
      idxConsistent (insert_strings encode s texts).1.hash_ids) ∧
    (ids.Nodup → (∀ h ∈ ids, h ∈ s.hash_ids) →
      ∃ s', s.delete ids = some s' ∧ s'.Wf ∧
        s'.hash_ids = s.hash_ids.filter (fun h => !(ids.contains h)) ∧
        idxConsistent s'.hash_ids) := by
  constructor
  · have hchar : (insert_strings encode s texts).1 = s ∨
        ∃ mi te : List String, te.length = mi.length ∧
          (insert_strings encode s texts).1 =
            { s with
              hash_ids := s.hash_ids ++ mi
              texts := s.texts ++ te
              embeddings := s.embeddings ++ te.map encode } := by
      simp only [insert_strings]
      split
      · exact Or.inl rfl
      · split
        · exact Or.inl rfl
        · exact Or.inr ⟨_, _, by simp [List.length_map], rfl⟩
    rcases hchar with heq | ⟨mi, te, hlen, heq⟩
    · rw [heq]
      exact ⟨hwf, idxConsistent_holds _⟩
    · rw [heq]
      refine ⟨⟨?_, ?_⟩, idxConsistent_holds _⟩
      · simp [List.length_append, List.length_map, hwf.1, hlen]
      · simp [List.length_append, List.length_map, hwf.2, hlen]
  · intro hnid hsub
    obtain ⟨is, his⟩ := lookupIndices_exists hsub
    have hmemis : ∀ j, j ∈ is ↔ ∃ h ∈ ids, lookupIdx s.hash_ids h = some j :=
      lookupIndices_mem his
    have hisnd : is.Nodup := lookupIndices_nodup hnid his
    have hbound : ∀ j ∈ is, j < s.hash_ids.length := by
      intro j hj
      obtain ⟨h, hhm, hlk⟩ := (hmemis j).mp hj
      exact (List.getElem?_eq_some_iff.mp (lookupIdx_getElem? hlk)).1
    have hperm : List.Perm (is.insertionSort (· ≤ ·)).reverse is :=
      (List.reverse_perm _).trans (List.perm_insertionSort _ is)
    have hsortnd : (is.insertionSort (· ≤ ·)).reverse.Nodup :=
      (hperm.nodup_iff).mpr hisnd
    have hge : (is.insertionSort (· ≤ ·)).reverse.Pairwise (· ≥ ·) := by
      rw [List.pairwise_reverse]
      exact List.sorted_insertionSort (· ≤ ·) is
    have hgt : (is.insertionSort (· ≤ ·)).reverse.Pairwise (· > ·) :=
      (hge.and hsortnd).imp fun hab => lt_of_le_of_ne hab.1 (Ne.symm hab.2)
    have hsortmem : ∀ j, j ∈ (is.insertionSort (· ≤ ·)).reverse ↔ j ∈ is :=
      fun j => hperm.mem_iff
    have hsbound : ∀ j ∈ (is.insertionSort (· ≤ ·)).reverse,
        j < s.hash_ids.length := fun j hj => hbound j ((hsortmem j).mp hj)
    have hfields := deleteLoop_fields s ((is.insertionSort (· ≤ ·)).reverse)
    have hlen := hperm.length_eq
    refine ⟨deleteLoop s ((is.insertionSort (· ≤ ·)).reverse), ?_, ⟨?_, ?_⟩, ?_, ?_⟩
    · simp [EmbeddingStore.delete, his]
    · rw [hfields.2.1, hfields.1,
        multiErase_length _ _ hgt hsbound,
        multiErase_length _ _ hgt (by rw [hwf.1]; exact hsbound), hwf.1]
    · rw [hfields.2.2, hfields.1,
        multiErase_length _ _ hgt hsbound,
        multiErase_length _ _ hgt (by rw [hwf.2]; exact hsbound), hwf.2]
    · rw [hfields.1, multiErase_eq_keepNotIdx _ _ hgt hsbound, keepNotIdx]
      have hcongr : ∀ p ∈ s.hash_ids.enum,
          (!((is.insertionSort (· ≤ ·)).reverse.contains p.1)) =
            (!(ids.contains p.2)) := by
        intro p hp
        have hg := List.mk_mem_enum_iff_getElem?.1 hp
        have hiff : p.1 ∈ (is.insertionSort (· ≤ ·)).reverse ↔ p.2 ∈ ids := by
          rw [hsortmem]
          constructor
          · intro hj
            obtain ⟨h, hhm, hlk⟩ := (hmemis p.1).mp hj
            have := lookupIdx_getElem? hlk
            rw [hg] at this
            simp only [Option.some.injEq] at this
            exact this ▸ hhm
          · intro hp2
            obtain ⟨j, hlj⟩ := lookupIdx_isSome_of_mem (hsub p.2 hp2)
            have hgj := lookupIdx_getElem? hlj
            have : j = p.1 := getElem?_inj_of_nodup hnd hgj hg
            exact (hmemis p.1).mpr ⟨p.2, hp2, this ▸ hlj⟩
        by_cases hc : p.1 ∈ (is.insertionSort (· ≤ ·)).reverse
        · have hp2 : p.2 ∈ ids := hiff.mp hc
          simp [hc, hp2]
        · have hp2 : p.2 ∉ ids := fun hx => hc (hiff.mpr hx)
          simp [hc, hp2]
      rw [List.filter_congr hcongr]
      exact keep_by_value s.hash_ids fun h => !(ids.contains h)
    · exact idxConsistent_holds _

/-- C7 witness: the theorem applied to a concrete two-record store, inserting
one text and deleting one identifier. -/
theorem store_mutations_preserve_invariants_witness :
    (⟨"ns", ["a", "b"], ["ta", "tb"], [[(1 : ℝ)], [2]], []⟩ :
        EmbeddingStore).Wf ∧
    (⟨"ns", ["a", "b"], ["ta", "tb"], [[(1 : ℝ)], [2]], []⟩ :
        EmbeddingStore).hash_ids.Nodup ∧
    (["a"] : List String).Nodup ∧
    (∀ h ∈ (["a"] : List String),
      h ∈ (⟨"ns", ["a", "b"], ["ta", "tb"], [[(1 : ℝ)], [2]], []⟩ :
        EmbeddingStore).hash_ids) ∧
    ((insert_strings (fun _ => [0]) ⟨"ns", ["a", "b"], ["ta", "tb"],
        [[(1 : ℝ)], [2]], []⟩ ["t"]).1.Wf ∧
      idxConsistent (insert_strings (fun _ => [0]) ⟨"ns", ["a", "b"],
        ["ta", "tb"], [[(1 : ℝ)], [2]], []⟩ ["t"]).1.hash_ids) ∧
    (∃ s', (⟨"ns", ["a", "b"], ["ta", "tb"], [[(1 : ℝ)], [2]], []⟩ :
        EmbeddingStore).delete ["a"] = some s' ∧ s'.Wf ∧
      s'.hash_ids = (["a", "b"] : List String).filter
        (fun h => !((["a"] : List String).contains h)) ∧
      idxConsistent s'.hash_ids) := by
  have hwf : (⟨"ns", ["a", "b"], ["ta", "tb"], [[(1 : ℝ)], [2]], []⟩ :
      EmbeddingStore).Wf := ⟨rfl, rfl⟩
  have hnd : (⟨"ns", ["a", "b"], ["ta", "tb"], [[(1 : ℝ)], [2]], []⟩ :
      EmbeddingStore).hash_ids.Nodup := by decide
  have hidnd : (["a"] : List String).Nodup := by decide
  have hsub : ∀ h ∈ (["a"] : List String),
      h ∈ (⟨"ns", ["a", "b"], ["ta", "tb"], [[(1 : ℝ)], [2]], []⟩ :
        EmbeddingStore).hash_ids := by decide
  have hmain := store_mutations_preserve_invariants
    ⟨"ns", ["a", "b"], ["ta", "tb"], [[(1 : ℝ)], [2]], []⟩
    (fun _ => [0]) ["t"] ["a"] hwf hnd
  exact ⟨hwf, hnd, hidnd, hsub, hmain.1, hmain.2 hidnd hsub⟩

/-- C8.  `load_state` on any (fresh) engine restores from an exported state
every configuration field and the window contents, so the restored engine is
the exported engine and every subsequent `calculate_activation_score` call
matches the original's output exactly. -/
theorem export_load_round_trip (m fresh : Manager) :
    load_state fresh (export_state m) = m ∧
    ∀ (hid : String) (hist : List AccessEvent) (q e : List ℝ) (t : ℝ),
      calculate_activation_score (load_state fresh (export_state m))
          hid hist q e t =
        calculate_activation_score m hid hist q e t := by
  have h : load_state fresh (export_state m) = m := by
    cases m
    rfl
  exact ⟨h, fun hid hist q e t => by rw [h]⟩

/-- C5.  Along every sequence of engine operations the window length never
exceeds the configured size, and `add_query_context` appends the new entry
and on overflow evicts exactly the oldest entry (the head), independent of
any scores. -/
theorem window_length_invariant :
    (∀ m : Manager, Reachable m →
      m.query_history.length ≤ m.context_window_size) ∧
    (∀ (m : Manager) (q : String) (emb : List ℝ) (now : String),
      m.query_history ≠ [] →
      m.context_window_size < m.query_history.length + 1 →
        (add_query_context m q emb now).query_history =
          m.query_history.tail ++ [⟨now, q, emb⟩]) ∧
    (∀ (m : Manager) (q : String) (emb : List ℝ) (now : String),
      m.query_history.length + 1 ≤ m.context_window_size →
        (add_query_context m q emb now).query_history =
          m.query_history ++ [⟨now, q, emb⟩]) := by
  refine ⟨?_, ?_, ?_⟩
  · intro m hm
    induction hm with
    | init ws rw fw vw thr dr => simp [Manager.init]
    | add m q emb now hr ih =>
      simp only [add_query_context]
      split
      · simp only [List.length_tail, List.length_append, List.length_cons,
          List.length_nil]
        omega
      · rename_i hnot
        simp only [List.length_append, List.length_cons, List.length_nil] at hnot ⊢
        omega
    | load m m' hr hr' ih ih' =>
      simpa [load_state, export_state] using ih
  · intro m q emb now hne hover
    simp only [add_query_context]
    rw [if_pos (by simp only [List.length_append, List.length_cons,
      List.length_nil]; omega)]
    cases hh : m.query_history with
    | nil => exact absurd hh hne
    | cons a l => simp
  · intro m q emb now hfits
    simp only [add_query_context]
    rw [if_neg (by simp only [List.length_append, List.length_cons,
      List.length_nil]; omega)]

/-- C5 witness: the invariant at a freshly constructed engine, and both
`add_query_context` branches at concrete windows. -/
theorem window_length_invariant_witness :
    Reachable (Manager.init 2 (3/10) (2/10) (5/10) (3/10) (1/100)) ∧
    (Manager.init 2 (3/10) (2/10) (5/10) (3/10)
        (1/100)).query_history.length ≤
      (Manager.init 2 (3/10) (2/10) (5/10) (3/10)
        (1/100)).context_window_size ∧
    (⟨1, 1, 1, 1, 1, 1, [⟨"t0", "q0", [1]⟩]⟩ : Manager).query_history ≠ [] ∧
    (⟨1, 1, 1, 1, 1, 1, [⟨"t0", "q0", [1]⟩]⟩ :
        Manager).context_window_size <
      (⟨1, 1, 1, 1, 1, 1, [⟨"t0", "q0", [1]⟩]⟩ :
        Manager).query_history.length + 1 ∧
    (add_query_context ⟨1, 1, 1, 1, 1, 1, [⟨"t0", "q0", [1]⟩]⟩
        "q1" [2] "t1").query_history =
      ([⟨"t0", "q0", [1]⟩] : List ContextEvent).tail ++ [⟨"t1", "q1", [2]⟩] := by
  have hreach : Reachable (Manager.init 2 (3/10) (2/10) (5/10) (3/10) (1/100)) :=
    Reachable.init 2 (3/10) (2/10) (5/10) (3/10) (1/100)
  have hne : (⟨1, 1, 1, 1, 1, 1, [⟨"t0", "q0", [1]⟩]⟩ :
      Manager).query_history ≠ [] := by simp
  have hover : (⟨1, 1, 1, 1, 1, 1, [⟨"t0", "q0", [1]⟩]⟩ :
      Manager).context_window_size <
      (⟨1, 1, 1, 1, 1, 1, [⟨"t0", "q0", [1]⟩]⟩ :
        Manager).query_history.length + 1 := by norm_num
  exact ⟨hreach, window_length_invariant.1 _ hreach, hne, hover,
    window_length_invariant.2.1 ⟨1, 1, 1, 1, 1, 1, [⟨"t0", "q0", [1]⟩]⟩
      "q1" [2] "t1" hne hover⟩

/-! ### Cosine-similarity bounds -/

theorem ceEngine_weights : ceEngine.relevance_weight = 1 ∧
    ceEngine.recency_weight = 0 ∧ ceEngine.frequency_weight = 0 ∧
    ceEngine.decay_rate = 1/100 := by
  refine ⟨?_, ?_, ?_, rfl⟩ <;> simp [ceEngine, Manager.init]

theorem ce_score (h : String) :
    calculate_activation_score ceEngine h [ceEvent] [1, 0] [0, 1] 0 =
      ⟨h, 0, 1, 0, 0, false⟩ := by
  have hdot11 : dotL [(1 : ℝ), 0] [1, 0] = 1 := by norm_num [dotL]
  have hdot22 : dotL [(0 : ℝ), 1] [0, 1] = 1 := by norm_num [dotL]
  have hdot12 : dotL [(1 : ℝ), 0] [0, 1] = 0 := by norm_num [dotL]
  have hn1 : normL [(1 : ℝ), 0] = 1 := by rw [normL, hdot11, Real.sqrt_one]
  have hn2 : normL [(0 : ℝ), 1] = 1 := by rw [normL, hdot22, Real.sqrt_one]
  have hcos : cosine_similarity [(1 : ℝ), 0] [0, 1] = 0 := by
    rw [cosine_similarity, if_neg (by rw [hn1, hn2]; norm_num), hdot12]
    norm_num
  have hcount : count_relevant_contexts [ceEvent]
      ceEngine.relevance_threshold = 0 := rfl
  have hts : ceEvent.timestamp = 0 := rfl
  have hlast : ([ceEvent]).getLast? = some ceEvent := rfl
  simp only [calculate_activation_score, hlast, hcos, hcount, hts,
    List.isEmpty_cons, List.length_cons, List.length_nil]
  rw [ceEngine_weights.1, ceEngine_weights.2.1, ceEngine_weights.2.2.1,
    ceEngine_weights.2.2.2]
  have hexp : Real.exp (-(1/100) * ((0 - (0 : ℝ)) / (24 * 3600))) = 1 := by
    rw [show (-(1/100) * ((0 - (0 : ℝ)) / (24 * 3600))) = 0 by norm_num,
      Real.exp_zero]
  rw [hexp]
  simp only [ActivationScores.mk.injEq]
  norm_num

theorem ce_batch : calculate_batch_activation ceEngine ceStore [1, 0] 0 =
    [("a", ⟨"a", 0, 1, 0, 0, false⟩), ("b", ⟨"b", 0, 1, 0, 0, false⟩),
     ("c", ⟨"c", 0, 1, 0, 0, false⟩)] := by
  have hids : ceStore.hash_ids = ["a", "b", "c"] := rfl
  have hha : get_access_history ceStore "a" = [ceEvent] := rfl
  have hhb : get_access_history ceStore "b" = [ceEvent] := rfl
  have hhc : get_access_history ceStore "c" = [ceEvent] := rfl
  have hea : embeddingAt ceStore "a" = [0, 1] := rfl
  have heb : embeddingAt ceStore "b" = [0, 1] := rfl
  have hec : embeddingAt ceStore "c" = [0, 1] := rfl
  unfold calculate_batch_activation
  rw [hids]
  simp only [List.map_cons, List.map_nil]
  rw [hha, hhb, hhc, hea, heb, hec, ce_score "a", ce_score "b", ce_score "c"]

theorem ce_sort : sortByActivation
    [("a", (⟨"a", 0, 1, 0, 0, false⟩ : ActivationScores)),
     ("b", ⟨"b", 0, 1, 0, 0, false⟩), ("c", ⟨"c", 0, 1, 0, 0, false⟩)] =
    [("a", ⟨"a", 0, 1, 0, 0, false⟩), ("b", ⟨"b", 0, 1, 0, 0, false⟩),
     ("c", ⟨"c", 0, 1, 0, 0, false⟩)] := by
  simp [sortByActivation, insertByActivation]

theorem ceForget_eval :
    get_memories_to_forget ceEngine ceStore [1, 0] (1/2) 0 = ["b", "c"] := by
  simp only [get_memories_to_forget]
  rw [ce_batch, ce_sort]
  have hlen : ([("a", (⟨"a", 0, 1, 0, 0, false⟩ : ActivationScores)),
      ("b", ⟨"b", 0, 1, 0, 0, false⟩),
      ("c", ⟨"c", 0, 1, 0, 0, false⟩)].length : ℝ) = 3 := by
    norm_num
  rw [hlen]
  have htr : pyTrunc ((3 : ℝ) * (1/2)) = 1 := by
    rw [pyTrunc, if_pos (by norm_num)]
    rw [show ((3 : ℝ) * (1/2)) = 3/2 by norm_num]
    rw [Int.floor_eq_iff (α := ℝ)]
    constructor <;> norm_num
  rw [htr]
  norm_num

/-- C2 counterexample.  With 3 records and `retention_ratio = 1/2`, the code
retains `max(1, int(3 * 0.5)) = 1` record (truncation, not ceiling) and
returns 2 identifiers — more than the claimed bound
`total_count - ceil(total_count * retention_ratio) = 3 - 2 = 1`. -/
theorem forget_exceeds_ceil_quota :
    ¬ ((get_memories_to_forget ceEngine ceStore [1, 0] (1/2) 0).length ≤
      ceStore.hash_ids.length -
        Nat.ceil ((ceStore.hash_ids.length : ℝ) * (1/2))) := by
  rw [ceForget_eval]
  have h3 : ceStore.hash_ids.length = 3 := rfl
  rw [h3]
  have hceil : Nat.ceil (((3 : ℕ) : ℝ) * (1/2)) = 2 := by
    rw [Nat.ceil_eq_iff (by norm_num)]
    constructor <;> norm_num
  rw [hceil]
  norm_num


theorem dotL_cons (x y : ℝ) (v w : List ℝ) :
    dotL (x :: v) (y :: w) = x * y + dotL v w := by
  simp [dotL]

theorem dotL_self_nonneg (v : List ℝ) : 0 ≤ dotL v v := by
  induction v with
  | nil => simp [dotL]
  | cons x xs ih =>
    rw [dotL_cons]
    exact add_nonneg (mul_self_nonneg x) ih

theorem dotL_sq_le (v w : List ℝ) : dotL v w ^ 2 ≤ dotL v v * dotL w w := by
  induction v generalizing w with
  | nil => simp [dotL]
  | cons x xs ih =>
    cases w with
    | nil =>
      simp [dotL]
    | cons y ys =>
      have h1 := ih ys
      have h2 := dotL_self_nonneg xs
      have h3 := dotL_self_nonneg ys
      rw [dotL_cons, dotL_cons, dotL_cons]
      rcases eq_or_lt_of_le h3 with hQ0 | hQpos
      · have hS : dotL xs ys = 0 := by nlinarith [sq_nonneg (dotL xs ys)]
        rw [hS, ← hQ0]
        nlinarith [mul_nonneg h2 (mul_self_nonneg y)]
      · nlinarith [sq_nonneg (x * dotL ys ys - y * dotL xs ys),
          mul_nonneg hQpos.le (sub_nonneg.mpr h1),
          mul_nonneg (sq_nonneg y) (sub_nonneg.mpr h1)]

theorem abs_dotL_le (v w : List ℝ) : |dotL v w| ≤ normL v * normL w := by
  rw [normL, normL, ← Real.sqrt_mul (dotL_self_nonneg v), ← Real.sqrt_sq_eq_abs]
  exact Real.sqrt_le_sqrt (dotL_sq_le v w)

theorem normL_nonneg (v : List ℝ) : 0 ≤ normL v := Real.sqrt_nonneg _

theorem cosine_similarity_le_one (v w : List ℝ) : cosine_similarity v w ≤ 1 := by
  unfold cosine_similarity
  split
  · norm_num
  · rename_i hne
    push_neg at hne
    have hv : 0 < normL v := lt_of_le_of_ne (normL_nonneg v) (Ne.symm hne.1)
    have hw : 0 < normL w := lt_of_le_of_ne (normL_nonneg w) (Ne.symm hne.2)
    rw [div_le_one (mul_pos hv hw)]
    exact (le_abs_self _).trans (abs_dotL_le v w)

/-- C4 counterexample.  With the default configuration, a `current_time`
earlier than the last recorded access makes the exponential argument
positive, so `recency_bonus` exceeds 1 — the claimed bound
`recency_bonus ≤ 1` fails for an arbitrary current time. -/
theorem recency_bonus_exceeds_one :
    1 < (calculate_activation_score
      (Manager.init 10 (3/10) (2/10) (5/10) (3/10) (1/100))
      "m" [⟨86400, none, -1, none, none⟩] [1] [1] 0).recency_bonus := by
  have hlast : ([(⟨86400, none, -1, none, none⟩ : AccessEvent)]).getLast? =
      some ⟨86400, none, -1, none, none⟩ := rfl
  simp only [calculate_activation_score, hlast, Manager.init]
  rw [Real.one_lt_exp_iff]
  norm_num

/-- C4 (amended).  For nonnegative weights with positive sum, nonnegative
decay rate, and a current time not earlier than the last recorded access,
every score component lies in `[0, 1]`, the total is exactly the weighted
combination under the constructor-normalized weights, those weights are
nonnegative and sum to 1, and an empty access history gives
`recency_bonus = 0`. -/
theorem activation_score_bounds (ws : ℕ) (rw fw vw thr dr : ℝ)
    (hrw : 0 ≤ rw) (hfw : 0 ≤ fw) (hvw : 0 ≤ vw) (hsum : 0 < rw + fw + vw)
    (hdr : 0 ≤ dr) (hid : String) (hist : List AccessEvent) (q e : List ℝ)
    (t : ℝ) (hlast : ∀ ev, hist.getLast? = some ev → ev.timestamp ≤ t) :
    0 ≤ (calculate_activation_score (Manager.init ws rw fw vw thr dr)
        hid hist q e t).semantic_relevance ∧
    (calculate_activation_score (Manager.init ws rw fw vw thr dr)
        hid hist q e t).semantic_relevance ≤ 1 ∧
    0 ≤ (calculate_activation_score (Manager.init ws rw fw vw thr dr)
        hid hist q e t).recency_bonus ∧
    (calculate_activation_score (Manager.init ws rw fw vw thr dr)
        hid hist q e t).recency_bonus ≤ 1 ∧
    0 ≤ (calculate_activation_score (Manager.init ws rw fw vw thr dr)
        hid hist q e t).context_frequency ∧
    (calculate_activation_score (Manager.init ws rw fw vw thr dr)
        hid hist q e t).context_frequency ≤ 1 ∧
    (calculate_activation_score (Manager.init ws rw fw vw thr dr)
        hid hist q e t).total_activation =
      (Manager.init ws rw fw vw thr dr).relevance_weight *
        (calculate_activation_score (Manager.init ws rw fw vw thr dr)
          hid hist q e t).semantic_relevance +
      (Manager.init ws rw fw vw thr dr).recency_weight *
        (calculate_activation_score (Manager.init ws rw fw vw thr dr)
          hid hist q e t).recency_bonus +
      (Manager.init ws rw fw vw thr dr).frequency_weight *
        (calculate_activation_score (Manager.init ws rw fw vw thr dr)
          hid hist q e t).context_frequency ∧
    (Manager.init ws rw fw vw thr dr).recency_weight +
      (Manager.init ws rw fw vw thr dr).frequency_weight +
      (Manager.init ws rw fw vw thr dr).relevance_weight = 1 ∧
    0 ≤ (Manager.init ws rw fw vw thr dr).recency_weight ∧
    0 ≤ (Manager.init ws rw fw vw thr dr).frequency_weight ∧
    0 ≤ (Manager.init ws rw fw vw thr dr).relevance_weight ∧
    (hist = [] →
      (calculate_activation_score (Manager.init ws rw fw vw thr dr)
        hid hist q e t).recency_bonus = 0) := by
  have hsem1 : 0 ≤ (calculate_activation_score (Manager.init ws rw fw vw thr dr)
      hid hist q e t).semantic_relevance := by
    simp only [calculate_activation_score]
    exact le_max_left 0 _
  have hsem2 : (calculate_activation_score (Manager.init ws rw fw vw thr dr)
      hid hist q e t).semantic_relevance ≤ 1 := by
    simp only [calculate_activation_score]
    exact max_le zero_le_one (cosine_similarity_le_one q e)
  have hrec1 : 0 ≤ (calculate_activation_score (Manager.init ws rw fw vw thr dr)
      hid hist q e t).recency_bonus := by
    simp only [calculate_activation_score]
    cases hl : hist.getLast? with
    | none => simp
    | some ev => simp [Real.exp_pos _ |>.le]
  have hrec2 : (calculate_activation_score (Manager.init ws rw fw vw thr dr)
      hid hist q e t).recency_bonus ≤ 1 := by
    simp only [calculate_activation_score]
    cases hl : hist.getLast? with
    | none => simp
    | some ev =>
      simp only
      rw [Real.exp_le_one_iff]
      have hts : ev.timestamp ≤ t := hlast ev hl
      have hdr' : (Manager.init ws rw fw vw thr dr).decay_rate = dr := rfl
      rw [hdr']
      have h1 : 0 ≤ (t - ev.timestamp) / (24 * 3600) :=
        div_nonneg (by linarith) (by norm_num)
      nlinarith
  have hfq1 : 0 ≤ (calculate_activation_score (Manager.init ws rw fw vw thr dr)
      hid hist q e t).context_frequency := by
    simp only [calculate_activation_score]
    split
    · exact le_refl 0
    · exact le_min zero_le_one (by positivity)
  have hfq2 : (calculate_activation_score (Manager.init ws rw fw vw thr dr)
      hid hist q e t).context_frequency ≤ 1 := by
    simp only [calculate_activation_score]
    split
    · norm_num
    · exact min_le_left 1 _
  have hw1 : (Manager.init ws rw fw vw thr dr).recency_weight = rw / (rw + fw + vw) := rfl
  have hw2 : (Manager.init ws rw fw vw thr dr).frequency_weight = fw / (rw + fw + vw) := rfl
  have hw3 : (Manager.init ws rw fw vw thr dr).relevance_weight = vw / (rw + fw + vw) := rfl
  refine ⟨hsem1, hsem2, hrec1, hrec2, hfq1, hfq2, rfl, ?_, ?_, ?_, ?_, ?_⟩
  · rw [hw1, hw2, hw3]
    field_simp
  · rw [hw1]; positivity
  · rw [hw2]; positivity
  · rw [hw3]; positivity
  · intro hempty
    subst hempty
    simp [calculate_activation_score]

/-- C4 witness: the amended theorem at the default configuration, an empty
history, unit embeddings and time 0. -/
theorem activation_score_bounds_witness :
    (0 : ℝ) ≤ 3/10 ∧ (0 : ℝ) ≤ 2/10 ∧ (0 : ℝ) ≤ 5/10 ∧
    (0 : ℝ) < 3/10 + 2/10 + 5/10 ∧ (0 : ℝ) ≤ 1/100 ∧
    (∀ ev : AccessEvent, ([] : List AccessEvent).getLast? = some ev →
      ev.timestamp ≤ (0 : ℝ)) ∧
    (0 ≤ (calculate_activation_score
        (Manager.init 10 (3/10) (2/10) (5/10) (3/10) (1/100))
        "m" [] [1] [1] 0).semantic_relevance ∧
      (calculate_activation_score
        (Manager.init 10 (3/10) (2/10) (5/10) (3/10) (1/100))
        "m" [] [1] [1] 0).recency_bonus = 0) := by
  have h1 : (0 : ℝ) ≤ 3/10 := by norm_num
  have h2 : (0 : ℝ) ≤ 2/10 := by norm_num
  have h3 : (0 : ℝ) ≤ 5/10 := by norm_num
  have h4 : (0 : ℝ) < 3/10 + 2/10 + 5/10 := by norm_num
  have h5 : (0 : ℝ) ≤ 1/100 := by norm_num
  have h6 : ∀ ev : AccessEvent, ([] : List AccessEvent).getLast? = some ev →
      ev.timestamp ≤ (0 : ℝ) := by simp
  have hmain := activation_score_bounds 10 (3/10) (2/10) (5/10) (3/10) (1/100)
    h1 h2 h3 h4 h5 "m" [] [1] [1] 0 h6
  exact ⟨h1, h2, h3, h4, h5, h6, hmain.1, hmain.2.2.2.2.2.2.2.2.2.2.2 rfl⟩

/-! ### Properties of the stable descending sort -/

theorem mem_insertByActivation {y x : String × ActivationScores}
    {l : List (String × ActivationScores)} :
    y ∈ insertByActivation x l ↔ y = x ∨ y ∈ l := by
  induction l with
  | nil => simp [insertByActivation]
  | cons z l ih =>
    rw [insertByActivation]
    split
    · simp
    · rw [List.mem_cons, ih, List.mem_cons]
      tauto

theorem sortByActivation_perm (l : List (String × ActivationScores)) :
    List.Perm (sortByActivation l) l := by
  induction l with
  | nil => exact List.Perm.refl _
  | cons x l ih =>
    rw [sortByActivation]
    have hins : ∀ (a : String × ActivationScores)
        (t : List (String × ActivationScores)),
        List.Perm (insertByActivation a t) (a :: t) := by
      intro a t
      induction t with
      | nil => exact List.Perm.refl _
      | cons z t iht =>
        rw [insertByActivation]
        split
        · exact List.Perm.refl _
        · exact (List.Perm.cons z iht).trans (List.Perm.swap a z t)
    exact (hins x (sortByActivation l)).trans (List.Perm.cons x ih)

theorem mem_sortByActivation {y : String × ActivationScores}
    {l : List (String × ActivationScores)} :
    y ∈ sortByActivation l ↔ y ∈ l :=
  (sortByActivation_perm l).mem_iff

theorem length_sortByActivation (l : List (String × ActivationScores)) :
    (sortByActivation l).length = l.length :=
  (sortByActivation_perm l).length_eq

/-- Every pair produced by `calculate_batch_activation` carries the score of
its own identifier. -/
theorem batch_pair_eq {m : Manager} {s : EmbeddingStore} {q : List ℝ} {t : ℝ}
    {p : String × ActivationScores}
    (hp : p ∈ calculate_batch_activation m s q t) :
    p.2 = calculate_activation_score m p.1 (get_access_history s p.1) q
      (embeddingAt s p.1) t := by
  unfold calculate_batch_activation at hp
  obtain ⟨h, hh, hph⟩ := List.mem_map.mp hp
  rw [← hph]

/-- C3.  `get_memories_to_forget` only returns identifiers whose computed
activation score has `should_retain = False`; in particular a record whose
access history is empty (never accessed) has `should_retain = True` and is
never returned. -/
theorem forget_respects_should_retain (m : Manager) (s : EmbeddingStore)
    (q : List ℝ) (r : ℝ) (t : ℝ) :
    (∀ h ∈ get_memories_to_forget m s q r t,
      (calculate_activation_score m h (get_access_history s h) q
        (embeddingAt s h) t).should_retain = false) ∧
    (∀ h : String, get_access_history s h = [] →
      h ∉ get_memories_to_forget m s q r t) := by
  have hpart1 : ∀ h ∈ get_memories_to_forget m s q r t,
      (calculate_activation_score m h (get_access_history s h) q
        (embeddingAt s h) t).should_retain = false := by
    intro h hmem
    unfold get_memories_to_forget at hmem
    obtain ⟨p, hpf, hph⟩ := List.mem_map.mp hmem
    have hfil := List.mem_filter.mp hpf
    have hflag : p.2.should_retain = false := by
      have := hfil.2
      simpa using this
    have hsorted : p ∈ sortByActivation
        (calculate_batch_activation m s q t) :=
      List.mem_of_mem_drop hfil.1
    have hbatch : p ∈ calculate_batch_activation m s q t :=
      mem_sortByActivation.mp hsorted
    have hp2 := batch_pair_eq hbatch
    rw [← hph, ← hp2]
    exact hflag
  refine ⟨hpart1, ?_⟩
  intro h hemp hmem
  have hflag := hpart1 h hmem
  rw [hemp] at hflag
  simp [calculate_activation_score] at hflag

/-- C3 witness: part one applied to a member of a concretely evaluated
forget list, and part two applied to a store with an empty access log. -/
theorem forget_respects_should_retain_witness :
    ("b" ∈ get_memories_to_forget ceEngine ceStore [1, 0] (1/2) 0 ∧
      (calculate_activation_score ceEngine "b" (get_access_history ceStore "b")
        [1, 0] (embeddingAt ceStore "b") 0).should_retain = false) ∧
    get_access_history ⟨"ns", ["a"], ["ta"], [[(1 : ℝ)]], []⟩ "a" = [] ∧
    "a" ∉ get_memories_to_forget ⟨10, 3/10, 2/10, 5/10, 3/10, 1/100, []⟩
      ⟨"ns", ["a"], ["ta"], [[(1 : ℝ)]], []⟩ [1] (9/10) 0 := by
  have hbmem : "b" ∈ get_memories_to_forget ceEngine ceStore [1, 0] (1/2) 0 := by
    rw [ceForget_eval]
    simp
  have hemp : get_access_history ⟨"ns", ["a"], ["ta"], [[(1 : ℝ)]], []⟩ "a" = [] := rfl
  exact ⟨⟨hbmem,
      (forget_respects_should_retain ceEngine ceStore [1, 0] (1/2) 0).1
        "b" hbmem⟩,
    hemp,
    (forget_respects_should_retain ⟨10, 3/10, 2/10, 5/10, 3/10, 1/100, []⟩
      ⟨"ns", ["a"], ["ta"], [[(1 : ℝ)]], []⟩ [1] (9/10) 0).2 "a" hemp⟩

/-- C2 (amended).  The retain quota the code computes is
`max(1, int(total_count * retention_ratio))` — `int()` truncates, it does
not take the ceiling.  With that quota: the forget list never holds more
than `total_count - max(1, trunc(total_count * retention_ratio))`
identifiers, and no identifier ranked in the retained top segment is ever
returned. -/
theorem forget_count_bound (m : Manager) (s : EmbeddingStore) (q : List ℝ)
    (r t : ℝ) (hnd : s.hash_ids.Nodup) :
    (get_memories_to_forget m s q r t).length ≤
      s.hash_ids.length -
        (max 1 (pyTrunc ((s.hash_ids.length : ℝ) * r))).toNat ∧
    ∀ p ∈ (sortByActivation (calculate_batch_activation m s q t)).take
        (max 1 (pyTrunc ((s.hash_ids.length : ℝ) * r))).toNat,
      p.1 ∉ get_memories_to_forget m s q r t := by
  have hblen : (calculate_batch_activation m s q t).length =
      s.hash_ids.length := by
    unfold calculate_batch_activation
    rw [List.length_map]
  have hslen : (sortByActivation (calculate_batch_activation m s q t)).length =
      s.hash_ids.length := by
    rw [length_sortByActivation, hblen]
  constructor
  · unfold get_memories_to_forget
    rw [List.length_map, hslen]
    calc (((sortByActivation (calculate_batch_activation m s q t)).drop
          (max 1 (pyTrunc ((s.hash_ids.length : ℝ) * r))).toNat).filter
          fun p => p.2.should_retain == false).length
        ≤ ((sortByActivation (calculate_batch_activation m s q t)).drop
          (max 1 (pyTrunc ((s.hash_ids.length : ℝ) * r))).toNat).length :=
          List.length_filter_le _ _
      _ = s.hash_ids.length -
          (max 1 (pyTrunc ((s.hash_ids.length : ℝ) * r))).toNat := by
          rw [List.length_drop, hslen]
  · intro p hptake hpmem
    simp only [get_memories_to_forget] at hpmem
    rw [hslen] at hpmem
    obtain ⟨p', hp'f, hp'1⟩ := List.mem_map.mp hpmem
    have hp'drop : p' ∈ (sortByActivation
        (calculate_batch_activation m s q t)).drop
        (max 1 (pyTrunc ((s.hash_ids.length : ℝ) * r))).toNat :=
      (List.mem_filter.mp hp'f).1
    have hbatchfst : (calculate_batch_activation m s q t).map Prod.fst =
        s.hash_ids := by
      unfold calculate_batch_activation
      rw [List.map_map]
      exact List.map_id s.hash_ids
    have hndmap : ((sortByActivation
        (calculate_batch_activation m s q t)).map Prod.fst).Nodup :=
      (((sortByActivation_perm _).map Prod.fst).nodup_iff).mpr
        (hbatchfst ▸ hnd)
    have hsplit : (sortByActivation
        (calculate_batch_activation m s q t)).map Prod.fst =
        ((sortByActivation (calculate_batch_activation m s q t)).take
          (max 1 (pyTrunc ((s.hash_ids.length : ℝ) * r))).toNat).map Prod.fst ++
        ((sortByActivation (calculate_batch_activation m s q t)).drop
          (max 1 (pyTrunc ((s.hash_ids.length : ℝ) * r))).toNat).map Prod.fst := by
      rw [← List.map_append, List.take_append_drop]
    rw [hsplit] at hndmap
    have hdisj := (List.nodup_append.mp hndmap).2.2
    have hintake : p.1 ∈ ((sortByActivation
        (calculate_batch_activation m s q t)).take
        (max 1 (pyTrunc ((s.hash_ids.length : ℝ) * r))).toNat).map Prod.fst :=
      List.mem_map_of_mem Prod.fst hptake
    have hindrop : p.1 ∈ ((sortByActivation
        (calculate_batch_activation m s q t)).drop
        (max 1 (pyTrunc ((s.hash_ids.length : ℝ) * r))).toNat).map Prod.fst := by
      rw [← hp'1]
      exact List.mem_map_of_mem Prod.fst hp'drop
    exact hdisj hintake hindrop

/-- C2 witness for the amended bound: the empty store. -/
theorem forget_count_bound_witness :
    (emptyStore "w").hash_ids.Nodup ∧
    (get_memories_to_forget ⟨10, 3/10, 2/10, 5/10, 3/10, 1/100, []⟩
        (emptyStore "w") [1] (1/2) 0).length ≤
      (emptyStore "w").hash_ids.length -
        (max 1 (pyTrunc (((emptyStore "w").hash_ids.length : ℝ) * (1/2)))).toNat := by
  have hnd : (emptyStore "w").hash_ids.Nodup := List.nodup_nil
  exact ⟨hnd, (forget_count_bound ⟨10, 3/10, 2/10, 5/10, 3/10, 1/100, []⟩
    (emptyStore "w") [1] (1/2) 0 hnd).1⟩

end HippoRAG
